import Mathlib

/-!
Verification of the goloop block-execution pipeline and related components.

Shallow embeddings of:
* `LogBloom.Merge` / `LogBloom.Contain` from `src/service/transaction_v3.go`
  (package `txresult`);
* `TransferHandler.ExecuteSync` from `src/unnamed/part_000` (package `contract`);
* the `Executor` of `icon/lcimporter`; its implementation file is not part of
  the sources (only `executor_test.go` is), so it is modelled from the
  specification (`spec.md`, sections 3-8).
-/

namespace Goloop

/-! ### LogBloom (src/service/transaction_v3.go, package txresult)

A `LogBloom` wraps a `big.Int` used as a 2048-bit set.  Blooms are only ever
built from `SetBytes`, `SetBit`, `Or` and `And` of other blooms, so the value
is always a non-negative integer; we embed it as `Nat`. -/

/-- The bloom value: a non-negative big integer treated as a bit set. -/
abbrev LogBloom := Nat

/-- `func (lb *LogBloom) Merge(lb2 *LogBloom) { lb.Int.Or(&lb.Int, &lb2.Int) }` -/
def LogBloom.Merge (lb lb2 : LogBloom) : LogBloom := lb ||| lb2

/-- `func (lb *LogBloom) Contain(mlb module.LogBloom) bool`:
`r.And(&lb.Int, &lb2.Int); return r.Cmp(&lb2.Int) == 0`. -/
def LogBloom.Contain (lb lb2 : LogBloom) : Bool := (lb &&& lb2) == lb2

theorem logBloom_land_lor (a b : LogBloom) : (a ||| b) &&& b = b := by
  apply Nat.eq_of_testBit_eq
  intro i
  simp only [Nat.testBit_and, Nat.testBit_or]
  cases h : b.testBit i <;> simp [h]

/-- C10: after `a.Merge(b)` the merged bloom contains `b`; and in general
`a.Contain(b)` holds exactly when every bit set in `b` is also set in `a`. -/
theorem C10_logbloom_merge_contain (a b : LogBloom) :
    (LogBloom.Contain (LogBloom.Merge a b) b = true) ∧
    (LogBloom.Contain a b = true ↔
      ∀ i, b.testBit i = true → a.testBit i = true) := by
  constructor
  · simp [LogBloom.Contain, LogBloom.Merge, logBloom_land_lor]
  · constructor
    · intro h i hb
      have heq : (a &&& b) = b := by
        simpa [LogBloom.Contain] using h
      have := congrArg (fun n => Nat.testBit n i) heq
      simp only [Nat.testBit_and, hb, Bool.and_true] at this
      exact this
    · intro h
      have heq : (a &&& b) = b := by
        apply Nat.eq_of_testBit_eq
        intro i
        simp only [Nat.testBit_and]
        cases hb : b.testBit i
        · simp
        · simp [h i hb]
      simp [LogBloom.Contain, heq]

/-! ### TransferHandler (src/unnamed/part_000, package contract)

Accounts are modelled as a balance map from address identifiers to integers
(`big.Int` balances).  `GetAccountState`/`GetBalance`/`SetBalance` become map
reads and writes. -/

/-- Execution status codes (module.Status values used by the handler). -/
inductive Status where
  | StatusSuccess
  | StatusOutOfBalance
  deriving DecidableEq, Repr

/-- The fields of `TransferHandler`/`CommonHandler` that `ExecuteSync` reads
(`h.from`, `h.toA`, `h.value`).  `from` is a Lean keyword, hence `fromA`. -/
structure TransferHandler where
  fromA : Nat
  toA : Nat
  value : Int

/-- `as.SetBalance(v)` on the account map. -/
def setBalance (w : Nat → Int) (a : Nat) (v : Int) : Nat → Int :=
  fun x => if x = a then v else w x

/-- `func (h *TransferHandler) ExecuteSync(cc CallContext)` from
src/unnamed/part_000 lines 139-155: check the sender balance against the
value, return `StatusOutOfBalance` without touching state if insufficient,
otherwise subtract from the sender then add to the recipient.  The step/limit
return values are not modelled (the claim is about status and balances). -/
def TransferHandler.ExecuteSync (h : TransferHandler) (w : Nat → Int) :
    Status × (Nat → Int) :=
  let bal1 := w h.fromA
  if bal1 < h.value then
    (Status.StatusOutOfBalance, w)
  else
    let w1 := setBalance w h.fromA (bal1 - h.value)
    let bal2 := w1 h.toA
    let w2 := setBalance w1 h.toA (bal2 + h.value)
    (Status.StatusSuccess, w2)

/-- The constant balance map assigning 5 to every account. -/
def w5 : Nat → Int := fun _ => 5

/-- C9 (counterexample): the claim as stated fails when sender = recipient.
With address 0 transferring 1 to itself from balance 5, the call succeeds but
the final balance is 5, not 5 - 1: the sender's balance does not decrease by
the value. -/
theorem C9_transfer_self_counterexample :
    ((TransferHandler.mk 0 0 1).ExecuteSync w5).1 = Status.StatusSuccess ∧
    ((TransferHandler.mk 0 0 1).ExecuteSync w5).2 0 = 5 ∧
    ¬ ((5 : Int) = 5 - 1) := by
  refine ⟨rfl, rfl, by decide⟩

/-- C9 (amended): if the sender's balance is below the value the call returns
`StatusOutOfBalance` and the balance map is unchanged; otherwise it returns
`StatusSuccess` and, when sender ≠ recipient, the sender's balance decreases
by exactly the value and the recipient's increases by exactly the value, while
when sender = recipient the balance is unchanged; other accounts are never
touched. -/
theorem C9_transfer_balances (fr toA : Nat) (v : Int) (w : Nat → Int) :
    (w fr < v →
      (TransferHandler.mk fr toA v).ExecuteSync w
        = (Status.StatusOutOfBalance, w)) ∧
    (¬ w fr < v →
      ((TransferHandler.mk fr toA v).ExecuteSync w).1 = Status.StatusSuccess ∧
      (fr ≠ toA →
        ((TransferHandler.mk fr toA v).ExecuteSync w).2 fr = w fr - v ∧
        ((TransferHandler.mk fr toA v).ExecuteSync w).2 toA = w toA + v) ∧
      (fr = toA →
        ((TransferHandler.mk fr toA v).ExecuteSync w).2 fr = w fr) ∧
      (∀ x, x ≠ fr → x ≠ toA →
        ((TransferHandler.mk fr toA v).ExecuteSync w).2 x = w x)) := by
  constructor
  · intro hlt
    simp [TransferHandler.ExecuteSync, hlt]
  · intro hge
    refine ⟨by simp [TransferHandler.ExecuteSync, hge], ?_, ?_, ?_⟩
    · intro hne
      constructor
      · simp [TransferHandler.ExecuteSync, hge, setBalance, hne, Ne.symm hne]
      · simp [TransferHandler.ExecuteSync, hge, setBalance, hne, Ne.symm hne]
    · intro heq
      subst heq
      simp [TransferHandler.ExecuteSync, hge, setBalance]
    · intro x hxf hxt
      simp [TransferHandler.ExecuteSync, hge, setBalance, hxf, hxt]

/-- C9 witness: a funded transfer of 2 between distinct accounts 0 and 1
starting from balance 5 each: status success, balances 3 and 7. -/
theorem C9_transfer_balances_witness :
    ((TransferHandler.mk 0 1 2).ExecuteSync w5).1 = Status.StatusSuccess ∧
    ((TransferHandler.mk 0 1 2).ExecuteSync w5).2 0 = 3 ∧
    ((TransferHandler.mk 0 1 2).ExecuteSync w5).2 1 = 7 := by
  have h := (C9_transfer_balances 0 1 2 w5).2 (by decide)
  refine ⟨h.1, ?_, ?_⟩
  · have := (h.2.1 (by decide)).1
    simpa using this
  · have := (h.2.1 (by decide)).2
    simpa using this

/-! ### Executor (icon/lcimporter)

Modelled from the spec: the file `executor.go` of `icon/lcimporter` is not in
the sources — only `executor_test.go` is — so the data model and the state
machine below follow spec.md sections 3-5 (BlockTransaction, DurableLog,
PendingBuffer, RequestEntry, ConverterSession, the Executor operations and the
drain worker).  The opaque byte fields are embedded as strings, heights as
integers (`int64`), and the converter channel's deliveries become explicit
`onReceive`/`onError` transitions of a step function emitting events (callback
invocations and `Rebase` calls). -/

/-- Modelled from the spec: `BlockTransaction` — immutable record of
`height, block_id, result, validator_hash, tx_count`, equality byte-wise on
all five fields. -/
structure BlockTransaction where
  Height : Int
  BlockID : String
  Result : String
  ValidatorHash : String
  TXCount : Int
  deriving DecidableEq, Repr

/-- Modelled from the spec: the constant used by the tests for `tx_count`
(`tpb/6`); its concrete value is irrelevant to every claim. -/
def TransactionsPerBlock : Int := 600

/-- The deterministic test record `TX(h,s)` of spec section 8. -/
def buildTestTx (height : Int) (suffix : String) : BlockTransaction :=
  { Height := height
    BlockID := "BLOCKID[" ++ toString height ++ "," ++ suffix ++ "]"
    Result := "RESULT[" ++ toString height ++ "," ++ suffix ++ "]"
    ValidatorHash := "VALIDATOR[" ++ toString height ++ "," ++ suffix ++ "]"
    TXCount := TransactionsPerBlock / 6 }

/-- `TX(fromH..toH, s)` as a list, matching `buildTestTxs` of the test file. -/
def buildTestTxs (fromH toH : Int) (suffix : String) : List BlockTransaction :=
  (List.range (toH + 1 - fromH).toNat).map
    (fun i => buildTestTx (fromH + (i : Int)) suffix)

/-- Error kinds of spec section 7.  `ErrLogIO` is named `errLogWrite` here. -/
inductive ExError where
  | errCanceled
  | errTerminated
  | errPrefixChanged
  | errConverterProtocol
  | errConverterFailure
  | errInvalidRange
  | errLogWrite
  | errAlreadyRunning
  | errNotRunning
  deriving DecidableEq, Repr

/-- Modelled from the spec: the durable log — append-only list of finalized
records (in key order) plus a fault-injection bound: appends fail with the
log I/O error once the log holds `failAfter` records. -/
structure DurableLog where
  entries : List BlockTransaction
  failAfter : Option Nat
  deriving DecidableEq, Repr

/-- `Append(t)`: durable write of one record, or the log I/O error. -/
def DurableLog.append (log : DurableLog) (t : BlockTransaction) :
    Except ExError DurableLog :=
  match log.failAfter with
  | some n =>
      if n ≤ log.entries.length then Except.error ExError.errLogWrite
      else Except.ok { log with entries := log.entries ++ [t] }
  | none => Except.ok { log with entries := log.entries ++ [t] }

/-- Append a batch in list order, failing on the first faulty write. -/
def DurableLog.appendAll (log : DurableLog) :
    List BlockTransaction → Except ExError DurableLog
  | [] => Except.ok log
  | t :: rest =>
      match log.append t with
      | Except.error e => Except.error e
      | Except.ok log2 => log2.appendAll rest

/-- Scan heights `0, 1, 2, …` in order; any gap terminates the scan
(`Open(path) → last_finalized`, returned here as `last_finalized + 1`). -/
def recoverNextAux : Int → List BlockTransaction → Int
  | h, [] => h
  | h, t :: rest => if t.Height = h then recoverNextAux (h + 1) rest else h

/-- The next height to finalize recovered from the log on open. -/
def DurableLog.recoveredNext (log : DurableLog) : Int :=
  recoverNextAux 0 log.entries

/-- A durable log with no entries and no injected fault. -/
def emptyLog : DurableLog := { entries := [], failAfter := none }

/-- Modelled from the spec: `RequestEntry` — an outstanding `GetTransactions`
with its range and the identity of its callback. -/
structure RequestEntry where
  id : Nat
  fromH : Int
  toH : Int
  deriving DecidableEq, Repr

/-- Modelled from the spec: `ConverterSession` — one live `Rebase` stream:
its `from`/`to` arguments, the vouched prefix (`txs` in the converter's
signature) and the next height the drain worker expects from the channel. -/
structure Session where
  fromH : Int
  toH : Int
  txs : List BlockTransaction
  expectedNext : Int
  deriving DecidableEq, Repr

/-- Executor lifecycle states (`Initial → Running → Terminated`). -/
inductive Phase where
  | initial
  | running
  | terminated
  deriving DecidableEq, Repr

/-- Modelled from the spec: the Executor's serialized state — durable log,
`last_finalized + 1` watermark, pending buffer, outstanding request queue,
live converter session and the next fresh request identifier. -/
structure ExecState where
  phase : Phase
  log : DurableLog
  nextFin : Int
  buffer : List BlockTransaction
  requests : List RequestEntry
  session : Option Session
  nextReqId : Nat
  deriving DecidableEq, Repr

/-- Observable effects of a transition: a request callback firing
(`cb(txs, err)`) or a `Rebase(from, to, txs)` call to the converter. -/
inductive Event where
  | callback (id : Nat) (txs : List BlockTransaction) (err : Option ExError)
  | rebase (fromH toH : Int) (txs : List BlockTransaction)
  deriving DecidableEq, Repr

/-- External stimuli: the public facade operations plus the two deliveries a
drain worker can take from the session channel (a record, or an error). -/
inductive Cmd where
  | start
  | term
  | getTxs (fromH toH : Int)
  | cancel (id : Nat)
  | propose
  | finalize (toH : Int)
  | sync (txs : List BlockTransaction)
  | onReceive (t : BlockTransaction)
  | onError
  deriving DecidableEq, Repr

/-- Heights of `l` are exactly `h, h+1, h+2, …` (contiguous ascending). -/
def contiguousFrom : Int → List BlockTransaction → Bool
  | _, [] => true
  | h, t :: rest => t.Height == h && contiguousFrom (h + 1) rest

/-- A new Executor over a log: `Initial` phase, watermark recovered from the
log, empty buffer and queue, no session. -/
def mkExecutor (log : DurableLog) : ExecState :=
  { phase := Phase.initial
    log := log
    nextFin := log.recoveredNext
    buffer := []
    requests := []
    session := none
    nextReqId := 0 }

/-- The buffer fully covers the height range `[fromH, toH]`. -/
def covers (s : ExecState) (fromH toH : Int) : Bool :=
  decide (s.nextFin ≤ fromH) &&
    decide (toH < s.nextFin + (s.buffer.length : Int))

/-- The slice of the buffer for the height range `[fromH, toH]`. -/
def reqSlice (s : ExecState) (fromH toH : Int) : List BlockTransaction :=
  (s.buffer.drop (fromH - s.nextFin).toNat).take (toH + 1 - fromH).toNat

/-- The ranges `[r.fromH, r.toH]` and `[fromH, toH]` intersect. -/
def overlaps (r : RequestEntry) (fromH toH : Int) : Bool :=
  decide (r.fromH ≤ toH) && decide (fromH ≤ r.toH)

/-- `Start`: on an `Initial` executor, enter `Running` and open the converter
session `Rebase(last_finalized+1, 0, nil)`; otherwise lifecycle misuse, a
no-op returning `ErrAlreadyRunning`. -/
def ExecState.startOp (s : ExecState) : ExecState × List Event :=
  if s.phase = Phase.initial then
    ({ s with
        phase := Phase.running
        session := some { fromH := s.nextFin, toH := 0, txs := []
                          expectedNext := s.nextFin } },
     [Event.rebase s.nextFin 0 []])
  else (s, [])

/-- `Term`: fail every outstanding request with `ErrTerminated`, drop the
session, enter `Terminated`; idempotent. -/
def ExecState.termOp (s : ExecState) : ExecState × List Event :=
  if s.phase = Phase.terminated then (s, [])
  else
    ({ s with phase := Phase.terminated, session := none, requests := [] },
     s.requests.map (fun r => Event.callback r.id [] (some ExError.errTerminated)))

/-- `GetTransactions(from, to, cb)`: reject bad ranges or a non-running
executor (no registration, the error is returned synchronously); otherwise
fail superseded older requests — pending entries whose range overlaps the new
one's — with `ErrPrefixChanged` (spec 4.1.2: "fail the older, incompatible
request when a newer request supersedes it", and scenario S3), then either
resolve the new request immediately from the buffer or leave it pending. -/
def ExecState.getTransactions (s : ExecState) (fromH toH : Int) :
    ExecState × List Event :=
  if s.phase = Phase.running then
    if s.nextFin ≤ fromH ∧ fromH ≤ toH + 1 then
      let kept := s.requests.filter (fun r => ! overlaps r fromH toH)
      let failEvs := (s.requests.filter (fun r => overlaps r fromH toH)).map
        (fun r => Event.callback r.id [] (some ExError.errPrefixChanged))
      if covers s fromH toH then
        ({ s with requests := kept, nextReqId := s.nextReqId + 1 },
         failEvs ++ [Event.callback s.nextReqId (reqSlice s fromH toH) none])
      else
        ({ s with
            requests := kept ++ [{ id := s.nextReqId, fromH := fromH, toH := toH }]
            nextReqId := s.nextReqId + 1 },
         failEvs)
    else (s, [])
  else (s, [])

/-- The `Canceler` firing for request `id`: if still pending, remove it and
invoke its callback once with `ErrCanceled`; idempotent otherwise. -/
def ExecState.cancelOp (s : ExecState) (id : Nat) : ExecState × List Event :=
  ({ s with requests := s.requests.filter (fun r => ! (r.id == id)) },
   (s.requests.filter (fun r => r.id == id)).map
     (fun r => Event.callback r.id [] (some ExError.errCanceled)))

/-- `propose_max`, the configurable limit on a proposal. -/
def proposeMax : Nat := 1024

/-- `ProposeTransactions()`: the current prefix of the pending buffer (whose
heights start at `last_finalized+1`), up to `propose_max` records; total and
effect-free, so it never blocks and returns `[]` when nothing is ready. -/
def ExecState.proposeTransactions (s : ExecState) : List BlockTransaction :=
  s.buffer.take proposeMax

/-- `FinalizeTransactions(to)`: require a running executor and
`last_finalized < to` with the heights `last_finalized+1 … to` buffered; then
append those records to the durable log in ascending order, advance the
watermark and drop them from the buffer.  Any log I/O failure aborts the
operation with that error and no state change (the caller keeps `s`). -/
def ExecState.finalizeTransactions (s : ExecState) (toH : Int) :
    Except ExError ExecState :=
  if s.phase = Phase.running then
    if s.nextFin ≤ toH then
      let n := (toH + 1 - s.nextFin).toNat
      if n ≤ s.buffer.length then
        match s.log.appendAll (s.buffer.take n) with
        | Except.error e => Except.error e
        | Except.ok log2 =>
            Except.ok { s with
              log := log2
              nextFin := toH + 1
              buffer := s.buffer.drop n }
      else Except.error ExError.errInvalidRange
    else Except.error ExError.errInvalidRange
  else Except.error ExError.errNotRunning

/-- `SyncTransactions(txs)`: adopt `txs` as the authoritative continuation at
`last_finalized+1` (it must be contiguous from there).  If the local buffer
prefix of the same length is record-for-record equal this is a no-op;
otherwise cancel the live session, fail every outstanding request with
`ErrPrefixChanged`, replace the buffer with the prefix and rebase the
converter with `Rebase(last_finalized+1, 0, txs)`. -/
def ExecState.syncTransactions (s : ExecState) (txs : List BlockTransaction) :
    Except ExError (ExecState × List Event) :=
  if s.phase = Phase.running then
    if contiguousFrom s.nextFin txs then
      if s.buffer.take txs.length = txs then Except.ok (s, [])
      else
        Except.ok
          ({ s with
              buffer := txs
              requests := []
              session := some { fromH := s.nextFin, toH := 0, txs := txs
                                expectedNext := s.nextFin + (txs.length : Int) } },
           (s.requests.map
              (fun r => Event.callback r.id [] (some ExError.errPrefixChanged)))
             ++ [Event.rebase s.nextFin 0 txs])
    else Except.error ExError.errInvalidRange
  else Except.error ExError.errNotRunning

/-- Session failure: drop the session and fail every outstanding request with
the given error (spec 4.2, "On error e … fail every outstanding request"). -/
def sessionFail (s : ExecState) (e : ExError) : ExecState × List Event :=
  ({ s with session := none, requests := [] },
   s.requests.map (fun r => Event.callback r.id [] (some e)))

/-- After an append, resolve every request whose range the buffer now covers
(spec 4.2: "scan the request queue: any entry whose [from,to] is now fully
covered by the buffer is removed and its callback invoked with the slice"). -/
def resolveReady (s : ExecState) : ExecState × List Event :=
  ({ s with requests := s.requests.filter (fun r => ! covers s r.fromH r.toH) },
   (s.requests.filter (fun r => covers s r.fromH r.toH)).map
     (fun r => Event.callback r.id (reqSlice s r.fromH r.toH) none))

/-- Drain worker, record delivery: verify `t.height == expected_next_height`
(mismatch fails the session with `ErrConverterProtocol` and appends nothing);
otherwise append `t`, advance the expectation and resolve covered requests. -/
def ExecState.onReceiveOp (s : ExecState) (t : BlockTransaction) :
    ExecState × List Event :=
  if s.phase = Phase.running then
    match s.session with
    | none => (s, [])
    | some ses =>
        if t.Height = ses.expectedNext then
          resolveReady
            { s with
                buffer := s.buffer ++ [t]
                session := some { ses with expectedNext := ses.expectedNext + 1 } }
        else sessionFail s ExError.errConverterProtocol
  else (s, [])

/-- Drain worker, error delivery from the converter channel. -/
def ExecState.onErrorOp (s : ExecState) : ExecState × List Event :=
  if s.phase = Phase.running then
    match s.session with
    | none => (s, [])
    | some _ => sessionFail s ExError.errConverterFailure
  else (s, [])

/-- One serialized transition of the Executor.  Facade operations that return
an error synchronously leave the state unchanged and emit no event. -/
def step (s : ExecState) (c : Cmd) : ExecState × List Event :=
  match c with
  | Cmd.start => s.startOp
  | Cmd.term => s.termOp
  | Cmd.getTxs fromH toH => s.getTransactions fromH toH
  | Cmd.cancel id => s.cancelOp id
  | Cmd.propose => (s, [])
  | Cmd.finalize toH =>
      match s.finalizeTransactions toH with
      | Except.ok s2 => (s2, [])
      | Except.error _ => (s, [])
  | Cmd.sync txs =>
      match s.syncTransactions txs with
      | Except.ok r => r
      | Except.error _ => (s, [])
  | Cmd.onReceive t => s.onReceiveOp t
  | Cmd.onError => s.onErrorOp

/-- Run a command sequence, accumulating the emitted events. -/
def run : ExecState → List Cmd → ExecState × List Event
  | s, [] => (s, [])
  | s, c :: rest =>
      let r1 := step s c
      let r2 := run r1.1 rest
      (r2.1, r1.2 ++ r2.2)

/-- The session expectation matches the end of the buffer: the drain worker's
`expected_next_height` is `last_finalized + 1 + |buffer|`. -/
def sessOK (s : ExecState) : Bool :=
  match s.session with
  | none => true
  | some ses => ses.expectedNext == s.nextFin + (s.buffer.length : Int)

/-- Phase-dependent facts: an `Initial` executor has no requests, session or
buffer; a `Terminated` one has no requests and no session. -/
def phaseOK (s : ExecState) : Bool :=
  match s.phase with
  | Phase.initial => s.requests.isEmpty && s.session.isNone && s.buffer.isEmpty
  | Phase.running => true
  | Phase.terminated => s.requests.isEmpty && s.session.isNone

/-- Reachable-state invariant: the pending buffer is contiguous from
`last_finalized + 1`, the durable log holds exactly heights
`0 … last_finalized` in order, and the session/phase side conditions hold. -/
def WF (s : ExecState) : Prop :=
  contiguousFrom s.nextFin s.buffer = true ∧
  contiguousFrom 0 s.log.entries = true ∧
  s.nextFin = (s.log.entries.length : Int) ∧
  sessOK s = true ∧
  phaseOK s = true

instance (s : ExecState) : Decidable (WF s) := by
  unfold WF
  infer_instance

instance {ε α : Type} [DecidableEq ε] [DecidableEq α] :
    DecidableEq (Except ε α) := fun a b =>
  match a, b with
  | Except.error e, Except.error f =>
      if h : e = f then Decidable.isTrue (by rw [h])
      else Decidable.isFalse (fun hc => h (Except.error.inj hc))
  | Except.error _, Except.ok _ =>
      Decidable.isFalse (fun hc => Except.noConfusion hc)
  | Except.ok _, Except.error _ =>
      Decidable.isFalse (fun hc => Except.noConfusion hc)
  | Except.ok x, Except.ok y =>
      if h : x = y then Decidable.isTrue (by rw [h])
      else Decidable.isFalse (fun hc => h (Except.ok.inj hc))

theorem contiguousFrom_append (l₁ l₂ : List BlockTransaction) (h : Int) :
    contiguousFrom h (l₁ ++ l₂)
      = (contiguousFrom h l₁ && contiguousFrom (h + l₁.length) l₂) := by
  induction l₁ generalizing h with
  | nil => simp [contiguousFrom]
  | cons t r ih =>
      have harith : h + ((r.length + 1 : Nat) : Int) = h + 1 + (r.length : Int) := by
        push_cast; ring
      simp only [List.cons_append, contiguousFrom, List.length_cons, harith,
        List.append_eq, ih (h + 1), Bool.and_assoc]

theorem contiguousFrom_take (l : List BlockTransaction) (h : Int) (n : Nat)
    (hc : contiguousFrom h l = true) :
    contiguousFrom h (l.take n) = true := by
  have h2 := contiguousFrom_append (l.take n) (l.drop n) h
  rw [List.take_append_drop, hc] at h2
  have h3 : contiguousFrom h (l.take n) = true ∧
      contiguousFrom (h + (l.take n).length) (l.drop n) = true := by
    simpa [Bool.and_eq_true] using h2.symm
  exact h3.1

theorem contiguousFrom_drop (l : List BlockTransaction) (h : Int) (n : Nat)
    (hn : n ≤ l.length) (hc : contiguousFrom h l = true) :
    contiguousFrom (h + n) (l.drop n) = true := by
  have h2 := contiguousFrom_append (l.take n) (l.drop n) h
  rw [List.take_append_drop, hc] at h2
  have h3 : contiguousFrom h (l.take n) = true ∧
      contiguousFrom (h + (l.take n).length) (l.drop n) = true := by
    simpa [Bool.and_eq_true] using h2.symm
  have h4 := h3.2
  rwa [List.length_take, Nat.min_eq_left hn] at h4

theorem contiguousFrom_snoc (l : List BlockTransaction) (h : Int)
    (t : BlockTransaction) (hc : contiguousFrom h l = true)
    (ht : t.Height = h + l.length) :
    contiguousFrom h (l ++ [t]) = true := by
  rw [contiguousFrom_append, hc, Bool.true_and]
  simp [contiguousFrom, ht]

theorem contiguousFrom_mem_le (l : List BlockTransaction) (h : Int)
    (hc : contiguousFrom h l = true) :
    ∀ t ∈ l, h ≤ t.Height := by
  induction l generalizing h with
  | nil => intro t ht; simp at ht
  | cons x r ih =>
      intro t ht
      simp only [contiguousFrom, Bool.and_eq_true, beq_iff_eq] at hc
      rcases List.mem_cons.mp ht with rfl | hmem
      · exact le_of_eq hc.1.symm
      · have := ih (h + 1) hc.2 t hmem
        omega

theorem recoverNextAux_contig (l : List BlockTransaction) (h : Int)
    (hc : contiguousFrom h l = true) :
    recoverNextAux h l = h + l.length := by
  induction l generalizing h with
  | nil => simp [recoverNextAux]
  | cons x r ih =>
      simp only [contiguousFrom, Bool.and_eq_true, beq_iff_eq] at hc
      simp only [recoverNextAux, hc.1, if_pos rfl, ih (h + 1) hc.2,
        List.length_cons]
      push_cast
      ring

theorem append_ok (log log2 : DurableLog) (t : BlockTransaction)
    (h : log.append t = Except.ok log2) :
    log2.entries = log.entries ++ [t] ∧ log2.failAfter = log.failAfter := by
  unfold DurableLog.append at h
  cases hf : log.failAfter with
  | none =>
      rw [hf] at h
      cases h
      exact ⟨rfl, rfl⟩
  | some n =>
      rw [hf] at h
      by_cases hn : n ≤ log.entries.length
      · simp [hn] at h
      · simp only [if_neg hn] at h
        cases h
        exact ⟨rfl, rfl⟩

theorem appendAll_ok (l : List BlockTransaction) (log log2 : DurableLog)
    (h : log.appendAll l = Except.ok log2) :
    log2.entries = log.entries ++ l ∧ log2.failAfter = log.failAfter := by
  induction l generalizing log with
  | nil =>
      unfold DurableLog.appendAll at h
      cases h
      simp
  | cons t rest ih =>
      unfold DurableLog.appendAll at h
      cases ha : log.append t with
      | error e => rw [ha] at h; cases h
      | ok log1 =>
          rw [ha] at h
          have h1 := append_ok log log1 t ha
          have h2 := ih log1 h
          refine ⟨?_, h2.2.trans h1.2⟩
          rw [h2.1, h1.1, List.append_assoc]
          simp

theorem appendAll_error (l : List BlockTransaction) (log : DurableLog)
    (e : ExError) (h : log.appendAll l = Except.error e) :
    e = ExError.errLogWrite := by
  induction l generalizing log with
  | nil => unfold DurableLog.appendAll at h; cases h
  | cons t rest ih =>
      unfold DurableLog.appendAll at h
      cases ha : log.append t with
      | error e2 =>
          rw [ha] at h
          cases h
          unfold DurableLog.append at ha
          cases hf : log.failAfter with
          | none => rw [hf] at ha; cases ha
          | some n =>
              rw [hf] at ha
              by_cases hn : n ≤ log.entries.length
              · simp only [if_pos hn] at ha
                cases ha
                rfl
              · simp [hn] at ha
      | ok log1 =>
          rw [ha] at h
          exact ih log1 h

theorem WF_requests (s : ExecState) (rs : List RequestEntry) (h : WF s)
    (hrun : s.phase = Phase.running) :
    WF { s with requests := rs } := by
  obtain ⟨hbuf, hlog, hlen, hsess, hphase⟩ := h
  exact ⟨hbuf, hlog, hlen, by simpa [sessOK] using hsess, by simp [phaseOK, hrun]⟩

theorem WF_sessionFail (s : ExecState) (e : ExError) (h : WF s)
    (hrun : s.phase = Phase.running) :
    WF (sessionFail s e).1 := by
  obtain ⟨hbuf, hlog, hlen, hsess, hphase⟩ := h
  exact ⟨hbuf, hlog, hlen, by simp [sessOK, sessionFail],
    by simp [phaseOK, sessionFail, hrun]⟩

theorem WF_step (s : ExecState) (c : Cmd) (h : WF s) : WF (step s c).1 := by
  obtain ⟨hbuf, hlog, hlen, hsess, hphase⟩ := h
  cases c with
  | start =>
      simp only [step, ExecState.startOp]
      by_cases hp : s.phase = Phase.initial
      · simp only [if_pos hp]
        have hinit : (s.requests = [] ∧ s.session = none) ∧ s.buffer = [] := by
          simpa [phaseOK, hp, Bool.and_eq_true] using hphase
        have hbe : s.buffer = [] := hinit.2
        refine ⟨hbuf, hlog, hlen, ?_, by simp [phaseOK]⟩
        simp [sessOK, hbe]
      · simp only [if_neg hp]
        exact ⟨hbuf, hlog, hlen, hsess, hphase⟩
  | term =>
      simp only [step, ExecState.termOp]
      by_cases hp : s.phase = Phase.terminated
      · simp only [if_pos hp]
        exact ⟨hbuf, hlog, hlen, hsess, hphase⟩
      · simp only [if_neg hp]
        exact ⟨hbuf, hlog, hlen, by simp [sessOK], by simp [phaseOK]⟩
  | getTxs fromH toH =>
      simp only [step, ExecState.getTransactions]
      by_cases hp : s.phase = Phase.running
      · simp only [if_pos hp]
        by_cases hr : s.nextFin ≤ fromH ∧ fromH ≤ toH + 1
        · simp only [if_pos hr]
          by_cases hcov : covers s fromH toH = true
          · simp only [hcov, if_pos]
            exact WF_requests s _ ⟨hbuf, hlog, hlen, hsess, hphase⟩ hp
          · simp only [Bool.not_eq_true] at hcov
            simp only [hcov, Bool.false_eq_true, if_false]
            exact WF_requests s _ ⟨hbuf, hlog, hlen, hsess, hphase⟩ hp
        · simp only [if_neg hr]
          exact ⟨hbuf, hlog, hlen, hsess, hphase⟩
      · simp only [if_neg hp]
        exact ⟨hbuf, hlog, hlen, hsess, hphase⟩
  | cancel id =>
      simp only [step, ExecState.cancelOp]
      refine ⟨hbuf, hlog, hlen, by simpa [sessOK] using hsess, ?_⟩
      cases hp : s.phase with
      | initial =>
          have : s.requests.isEmpty = true := by
            have := hphase
            simp [phaseOK, hp, Bool.and_eq_true] at this
            simp [this.1]
          have hre : s.requests = [] := List.isEmpty_iff.mp this
          have := hphase
          simp [phaseOK, hp, hre, Bool.and_eq_true] at this ⊢
          exact this
      | running => simp [phaseOK, hp]
      | terminated =>
          have : s.requests.isEmpty = true := by
            have := hphase
            simp [phaseOK, hp, Bool.and_eq_true] at this
            simp [this.1]
          have hre : s.requests = [] := List.isEmpty_iff.mp this
          have := hphase
          simp [phaseOK, hp, hre, Bool.and_eq_true] at this ⊢
          exact this
  | propose => exact ⟨hbuf, hlog, hlen, hsess, hphase⟩
  | finalize toH =>
      simp only [step]
      cases hf : s.finalizeTransactions toH with
      | error e => exact ⟨hbuf, hlog, hlen, hsess, hphase⟩
      | ok s2 =>
          unfold ExecState.finalizeTransactions at hf
          by_cases hp : s.phase = Phase.running
          · simp only [if_pos hp] at hf
            by_cases hto : s.nextFin ≤ toH
            · simp only [if_pos hto] at hf
              by_cases hn : (toH + 1 - s.nextFin).toNat ≤ s.buffer.length
              · simp only [if_pos hn] at hf
                cases ha : s.log.appendAll (s.buffer.take (toH + 1 - s.nextFin).toNat) with
                | error e => rw [ha] at hf; cases hf
                | ok log2 =>
                    rw [ha] at hf
                    cases hf
                    have hents := appendAll_ok _ _ _ ha
                    have htn : ((toH + 1 - s.nextFin).toNat : Int)
                        = toH + 1 - s.nextFin := by omega
                    refine ⟨?_, ?_, ?_, ?_, by simp [phaseOK, hp]⟩
                    · have hd := contiguousFrom_drop s.buffer s.nextFin
                        (toH + 1 - s.nextFin).toNat hn hbuf
                      have : s.nextFin + ((toH + 1 - s.nextFin).toNat : Int)
                          = toH + 1 := by omega
                      rwa [this] at hd
                    · rw [hents.1, contiguousFrom_append]
                      have htake := contiguousFrom_take s.buffer s.nextFin
                        (toH + 1 - s.nextFin).toNat hbuf
                      have hz : (0 : Int) + (s.log.entries.length : Int)
                          = s.nextFin := by omega
                      rw [hz, hlog, htake]
                      rfl
                    · rw [hents.1]
                      simp only [List.length_append, List.length_take]
                      omega
                    · cases hses : s.session with
                      | none => simp [sessOK, hses]
                      | some ses =>
                          have := hsess
                          simp only [sessOK, hses, beq_iff_eq] at this
                          simp only [sessOK, hses, beq_iff_eq,
                            List.length_drop]
                          omega
              · simp only [if_neg hn] at hf; cases hf
            · simp only [if_neg hto] at hf; cases hf
          · simp only [if_neg hp] at hf; cases hf
  | sync txs =>
      simp only [step]
      cases hf : s.syncTransactions txs with
      | error e => exact ⟨hbuf, hlog, hlen, hsess, hphase⟩
      | ok r =>
          unfold ExecState.syncTransactions at hf
          by_cases hp : s.phase = Phase.running
          · simp only [if_pos hp] at hf
            by_cases hc : contiguousFrom s.nextFin txs = true
            · simp only [hc, if_pos] at hf
              by_cases heq : s.buffer.take txs.length = txs
              · simp only [if_pos heq] at hf
                cases hf
                exact ⟨hbuf, hlog, hlen, hsess, hphase⟩
              · simp only [if_neg heq] at hf
                cases hf
                refine ⟨hc, hlog, hlen, by simp [sessOK], by simp [phaseOK, hp]⟩
            · simp only [Bool.not_eq_true] at hc
              simp only [hc, Bool.false_eq_true, if_false] at hf
              cases hf
          · simp only [if_neg hp] at hf; cases hf
  | onReceive t =>
      simp only [step, ExecState.onReceiveOp]
      by_cases hp : s.phase = Phase.running
      · simp only [if_pos hp]
        cases hses : s.session with
        | none => exact ⟨hbuf, hlog, hlen, hsess, hphase⟩
        | some ses =>
            by_cases hh : t.Height = ses.expectedNext
            · simp only [if_pos hh]
              have hexp := hsess
              simp only [sessOK, hses, beq_iff_eq] at hexp
              have hsn : contiguousFrom s.nextFin (s.buffer ++ [t]) = true :=
                contiguousFrom_snoc s.buffer s.nextFin t hbuf (by omega)
              refine ⟨?_, hlog, hlen, ?_, ?_⟩
              · simpa [resolveReady] using hsn
              · simp only [resolveReady, sessOK, beq_iff_eq]
                simp only [List.length_append, List.length_cons,
                  List.length_nil]
                push_cast
                omega
              · simp [resolveReady, phaseOK, hp]
            · simp only [if_neg hh]
              exact WF_sessionFail s _ ⟨hbuf, hlog, hlen, hsess, hphase⟩ hp
      · simp only [if_neg hp]
        exact ⟨hbuf, hlog, hlen, hsess, hphase⟩
  | onError =>
      simp only [step, ExecState.onErrorOp]
      by_cases hp : s.phase = Phase.running
      · simp only [if_pos hp]
        cases hses : s.session with
        | none => exact ⟨hbuf, hlog, hlen, hsess, hphase⟩
        | some ses =>
            exact WF_sessionFail s _ ⟨hbuf, hlog, hlen, hsess, hphase⟩ hp
      · simp only [if_neg hp]
        exact ⟨hbuf, hlog, hlen, hsess, hphase⟩

theorem WF_run (s : ExecState) (cmds : List Cmd) (h : WF s) :
    WF (run s cmds).1 := by
  induction cmds generalizing s with
  | nil => simpa [run] using h
  | cons c rest ih =>
      simp only [run]
      exact ih _ (WF_step s c h)

/-! Accounting for the exactly-once callback property: `cbCount` counts the
callback events fired for a request id, `pcount` counts its occurrences in
the pending queue. -/

/-- This event is a callback for request `id`. -/
def isCb (id : Nat) : Event → Bool
  | Event.callback i _ _ => i == id
  | Event.rebase _ _ _ => false

/-- Number of callback invocations for request `id` in an event list. -/
def cbCount (evs : List Event) (id : Nat) : Nat :=
  (evs.filter (isCb id)).length

/-- Identifiers of the requests currently pending. -/
def pendingIds (s : ExecState) : List Nat := s.requests.map (fun r => r.id)

/-- Multiplicity of `id` in the pending queue (0 or 1 in reachable states). -/
def pcount (s : ExecState) (id : Nat) : Nat := (pendingIds s).count id

theorem cbCount_append (a b : List Event) (id : Nat) :
    cbCount (a ++ b) id = cbCount a id + cbCount b id := by
  simp [cbCount, List.filter_append]

theorem cbCount_map (rs : List RequestEntry)
    (f : RequestEntry → List BlockTransaction)
    (g : RequestEntry → Option ExError) (id : Nat) :
    cbCount (rs.map (fun r => Event.callback r.id (f r) (g r))) id
      = (rs.map (fun r => r.id)).count id := by
  induction rs with
  | nil => simp [cbCount]
  | cons r rest ih =>
      simp only [List.map_cons, cbCount, List.filter_cons, isCb]
      by_cases hr : r.id = id
      · simp only [hr, beq_self_eq_true, if_pos, List.length_cons,
          List.count_cons_self]
        rw [← ih]
        rfl
      · have : (r.id == id) = false := by simp [hr]
        simp only [this, Bool.false_eq_true, if_false]
        rw [List.count_cons_of_ne (fun h => hr h.symm)]
        exact ih

theorem count_filter_partition (rs : List RequestEntry)
    (p : RequestEntry → Bool) (id : Nat) :
    (((rs.filter p).map (fun r => r.id)).count id)
      + (((rs.filter (fun r => ! p r)).map (fun r => r.id)).count id)
    = ((rs.map (fun r => r.id)).count id) := by
  induction rs with
  | nil => simp
  | cons r rest ih =>
      by_cases hp : p r
      · simp only [List.filter_cons, hp, if_pos, Bool.not_true,
          Bool.false_eq_true, if_false, List.map_cons]
        by_cases hr : r.id = id
        · rw [hr, List.count_cons_self, List.count_cons_self]
          omega
        · rw [List.count_cons_of_ne (fun h => hr h.symm),
            List.count_cons_of_ne (fun h => hr h.symm)]
          exact ih
      · have hp' : p r = false := by simpa using hp
        simp only [List.filter_cons, hp', Bool.false_eq_true, if_false,
          Bool.not_false, if_pos, List.map_cons]
        by_cases hr : r.id = id
        · rw [hr, List.count_cons_self, List.count_cons_self]
          omega
        · rw [List.count_cons_of_ne (fun h => hr h.symm),
            List.count_cons_of_ne (fun h => hr h.symm)]
          exact ih

/-- Registration indicator: `id` was allocated between two states. -/
def regInd (a b : Nat) (id : Nat) : Nat := if a ≤ id ∧ id < b then 1 else 0

theorem finalize_ok_fields (s : ExecState) (toH : Int) (s2 : ExecState)
    (hf : s.finalizeTransactions toH = Except.ok s2) :
    s2.requests = s.requests ∧ s2.nextReqId = s.nextReqId ∧
      s2.phase = s.phase ∧ s2.session = s.session := by
  unfold ExecState.finalizeTransactions at hf
  by_cases hp : s.phase = Phase.running
  · simp only [if_pos hp] at hf
    by_cases hto : s.nextFin ≤ toH
    · simp only [if_pos hto] at hf
      by_cases hn : (toH + 1 - s.nextFin).toNat ≤ s.buffer.length
      · simp only [if_pos hn] at hf
        cases ha : s.log.appendAll
            (s.buffer.take ((toH + 1 - s.nextFin).toNat)) with
        | error e => rw [ha] at hf; cases hf
        | ok log2 => rw [ha] at hf; cases hf; exact ⟨rfl, rfl, rfl, rfl⟩
      · simp only [if_neg hn] at hf; cases hf
    · simp only [if_neg hto] at hf; cases hf
  · simp only [if_neg hp] at hf; cases hf

theorem sync_ok_reqId (s : ExecState) (txs : List BlockTransaction)
    (r : ExecState × List Event)
    (hf : s.syncTransactions txs = Except.ok r) :
    r.1.nextReqId = s.nextReqId := by
  unfold ExecState.syncTransactions at hf
  by_cases hp : s.phase = Phase.running
  · simp only [if_pos hp] at hf
    by_cases hc : contiguousFrom s.nextFin txs = true
    · simp only [hc, if_pos] at hf
      by_cases heq : s.buffer.take txs.length = txs
      · simp only [if_pos heq] at hf; cases hf; rfl
      · simp only [if_neg heq] at hf; cases hf; rfl
    · simp only [Bool.not_eq_true] at hc
      simp only [hc, Bool.false_eq_true, if_false] at hf
      cases hf
  · simp only [if_neg hp] at hf; cases hf

theorem step_reqId_mono (s : ExecState) (c : Cmd) :
    s.nextReqId ≤ (step s c).1.nextReqId := by
  cases c with
  | start =>
      simp only [step, ExecState.startOp]
      split <;> simp
  | term =>
      simp only [step, ExecState.termOp]
      split <;> simp
  | getTxs fromH toH =>
      simp only [step, ExecState.getTransactions]
      split
      · split
        · split <;> simp
        · simp
      · simp
  | cancel id => simp [step, ExecState.cancelOp]
  | propose => simp [step]
  | finalize toH =>
      simp only [step]
      cases hf : s.finalizeTransactions toH with
      | error e => simp
      | ok s2 =>
          have := (finalize_ok_fields s toH s2 hf).2.1
          simp [this]
  | sync txs =>
      simp only [step]
      cases hf : s.syncTransactions txs with
      | error e => simp
      | ok r =>
          have := sync_ok_reqId s txs r hf
          simp [this]
  | onReceive t =>
      simp only [step, ExecState.onReceiveOp]
      by_cases hp : s.phase = Phase.running
      · simp only [if_pos hp]
        cases hses : s.session with
        | none => simp
        | some ses =>
            by_cases hh : t.Height = ses.expectedNext
            · simp [if_pos hh, resolveReady]
            · simp [if_neg hh, sessionFail]
      · simp [if_neg hp]
  | onError =>
      simp only [step, ExecState.onErrorOp]
      by_cases hp : s.phase = Phase.running
      · simp only [if_pos hp]
        cases hses : s.session with
        | none => simp
        | some ses => simp [sessionFail]
      · simp [if_neg hp]

theorem step_ledger (s : ExecState) (c : Cmd) (id : Nat) :
    cbCount (step s c).2 id + pcount (step s c).1 id
      = pcount s id + regInd s.nextReqId (step s c).1.nextReqId id := by
  have hnoop : ∀ a : Nat, regInd a a id = 0 := by
    intro a; simp only [regInd]; split
    · omega
    · rfl
  cases c with
  | start =>
      simp only [step, ExecState.startOp]
      split
      · simp [cbCount, isCb, pcount, pendingIds, hnoop]
      · simp [cbCount, pcount, hnoop]
  | term =>
      simp only [step, ExecState.termOp]
      split
      · simp [cbCount, pcount, hnoop]
      · have hm := cbCount_map s.requests (fun _ => [])
          (fun _ => some ExError.errTerminated) id
        simp only [pcount, pendingIds] at *
        rw [hm]
        simp [hnoop]
  | getTxs fromH toH =>
      simp only [step, ExecState.getTransactions]
      split
      · split
        · split
          · -- covered: old overlapping requests failed, new one resolved now
            rw [cbCount_append]
            have hm := cbCount_map (s.requests.filter (fun r => overlaps r fromH toH))
              (fun _ => []) (fun _ => some ExError.errPrefixChanged) id
            have hpart := count_filter_partition s.requests
              (fun r => overlaps r fromH toH) id
            simp only [pcount, pendingIds] at *
            rw [hm]
            have hone : cbCount [Event.callback s.nextReqId
                (reqSlice s fromH toH) none] id
                = if s.nextReqId = id then 1 else 0 := by
              simp only [cbCount, List.filter, isCb]
              by_cases hi : s.nextReqId = id
              · simp [hi]
              · have : (s.nextReqId == id) = false := by simpa using hi
                simp [this, hi]
            rw [hone]
            have hreg : regInd s.nextReqId (s.nextReqId + 1) id
                = if s.nextReqId = id then 1 else 0 := by
              simp only [regInd]
              by_cases hi : s.nextReqId = id
              · subst hi; simp
              · have : ¬ (s.nextReqId ≤ id ∧ id < s.nextReqId + 1) := by omega
                simp [this, hi]
            rw [hreg]
            omega
          · -- not covered: register the new entry
            have hm := cbCount_map (s.requests.filter (fun r => overlaps r fromH toH))
              (fun _ => []) (fun _ => some ExError.errPrefixChanged) id
            have hpart := count_filter_partition s.requests
              (fun r => overlaps r fromH toH) id
            simp only [pcount, pendingIds] at *
            rw [hm]
            have hreg : regInd s.nextReqId (s.nextReqId + 1) id
                = if s.nextReqId = id then 1 else 0 := by
              simp only [regInd]
              by_cases hi : s.nextReqId = id
              · subst hi; simp
              · have : ¬ (s.nextReqId ≤ id ∧ id < s.nextReqId + 1) := by omega
                simp [this, hi]
            rw [hreg]
            rw [List.map_append, List.count_append]
            simp only [List.map_cons, List.map_nil]
            by_cases hi : s.nextReqId = id
            · rw [hi]; simp only [List.count_singleton]; simp [hi]; omega
            · rw [List.count_cons_of_ne (fun h => hi h.symm),
                List.count_nil]
              simp [hi]
              omega
        · simp [cbCount, pcount, hnoop]
      · simp [cbCount, pcount, hnoop]
  | cancel cid =>
      simp only [step, ExecState.cancelOp]
      have hm := cbCount_map (s.requests.filter (fun r => r.id == cid))
        (fun _ => []) (fun _ => some ExError.errCanceled) id
      have hpart := count_filter_partition s.requests (fun r => r.id == cid) id
      simp only [pcount, pendingIds] at *
      rw [hm]
      simp only [hnoop]
      omega
  | propose => simp [step, cbCount, pcount, hnoop]
  | finalize toH =>
      simp only [step]
      cases hf : s.finalizeTransactions toH with
      | error e => simp [cbCount, pcount, hnoop]
      | ok s2 =>
          have hfields := finalize_ok_fields s toH s2 hf
          simp [cbCount, pcount, pendingIds, hfields.1, hfields.2.1, hnoop]
  | sync txs =>
      simp only [step]
      cases hf : s.syncTransactions txs with
      | error e => simp [cbCount, pcount, hnoop]
      | ok r =>
          unfold ExecState.syncTransactions at hf
          by_cases hp : s.phase = Phase.running
          · simp only [if_pos hp] at hf
            by_cases hc : contiguousFrom s.nextFin txs = true
            · simp only [hc, if_pos] at hf
              by_cases heqb : s.buffer.take txs.length = txs
              · simp only [if_pos heqb] at hf
                cases hf
                simp [cbCount, pcount, hnoop]
              · simp only [if_neg heqb] at hf
                cases hf
                rw [cbCount_append]
                have hm := cbCount_map s.requests (fun _ => [])
                  (fun _ => some ExError.errPrefixChanged) id
                simp only [pcount, pendingIds] at *
                rw [hm]
                simp [cbCount, isCb, hnoop]
            · simp only [Bool.not_eq_true] at hc
              simp only [hc, Bool.false_eq_true, if_false] at hf
              cases hf
          · simp only [if_neg hp] at hf; cases hf
  | onReceive t =>
      simp only [step, ExecState.onReceiveOp]
      by_cases hp : s.phase = Phase.running
      case neg => simp [if_neg hp, cbCount, pcount, hnoop]
      case pos =>
        simp only [if_pos hp]
        cases hses : s.session with
        | none => simp [cbCount, pcount, hnoop]
        | some ses =>
            by_cases hh : t.Height = ses.expectedNext
            · simp only [if_pos hh]
              simp only [resolveReady]
              have hm := cbCount_map
                ((({ s with
                    buffer := s.buffer ++ [t],
                    session := some { ses with
                      expectedNext := ses.expectedNext + 1 } } : ExecState)).requests.filter
                  (fun r => covers { s with
                    buffer := s.buffer ++ [t],
                    session := some { ses with
                      expectedNext := ses.expectedNext + 1 } } r.fromH r.toH))
                (fun r => reqSlice { s with
                    buffer := s.buffer ++ [t],
                    session := some { ses with
                      expectedNext := ses.expectedNext + 1 } } r.fromH r.toH)
                (fun _ => none) id
              have hpart := count_filter_partition s.requests
                (fun r => covers { s with
                    buffer := s.buffer ++ [t],
                    session := some { ses with
                      expectedNext := ses.expectedNext + 1 } } r.fromH r.toH) id
              simp only [pcount, pendingIds] at *
              rw [hm]
              simp only [hnoop]
              omega
            · simp only [if_neg hh]
              simp only [sessionFail]
              have hm := cbCount_map s.requests (fun _ => [])
                (fun _ => some ExError.errConverterProtocol) id
              simp only [pcount, pendingIds] at *
              rw [hm]
              simp [hnoop]
  | onError =>
      simp only [step, ExecState.onErrorOp]
      by_cases hp : s.phase = Phase.running
      case neg => simp [if_neg hp, cbCount, pcount, hnoop]
      case pos =>
        simp only [if_pos hp]
        cases hses : s.session with
        | none => simp [cbCount, pcount, hnoop]
        | some ses =>
            simp only [sessionFail]
            have hm := cbCount_map s.requests (fun _ => [])
              (fun _ => some ExError.errConverterFailure) id
            simp only [pcount, pendingIds] at *
            rw [hm]
            simp [hnoop]

theorem regInd_add (a b c id : Nat) (hab : a ≤ b) (hbc : b ≤ c) :
    regInd a b id + regInd b c id = regInd a c id := by
  unfold regInd
  by_cases h1 : a ≤ id ∧ id < b
  · rw [if_pos h1, if_neg (by omega : ¬ (b ≤ id ∧ id < c)),
      if_pos (by omega : a ≤ id ∧ id < c)]
  · rw [if_neg h1]
    by_cases h2 : b ≤ id ∧ id < c
    · rw [if_pos h2, if_pos (by omega : a ≤ id ∧ id < c)]
    · rw [if_neg h2, if_neg (by omega : ¬ (a ≤ id ∧ id < c))]

theorem run_reqId_mono (s : ExecState) (cmds : List Cmd) :
    s.nextReqId ≤ (run s cmds).1.nextReqId := by
  induction cmds generalizing s with
  | nil => simp [run]
  | cons c rest ih =>
      simp only [run]
      exact le_trans (step_reqId_mono s c) (ih (step s c).1)

theorem run_ledger (s : ExecState) (cmds : List Cmd) (id : Nat) :
    cbCount (run s cmds).2 id + pcount (run s cmds).1 id
      = pcount s id + regInd s.nextReqId (run s cmds).1.nextReqId id := by
  induction cmds generalizing s with
  | nil => simp [run, cbCount, regInd]
  | cons c rest ih =>
      simp only [run]
      rw [cbCount_append]
      have h1 := step_ledger s c id
      have h2 := ih (step s c).1
      have hm1 := step_reqId_mono s c
      have hm2 := run_reqId_mono (step s c).1 rest
      rw [← regInd_add s.nextReqId (step s c).1.nextReqId
        (run (step s c).1 rest).1.nextReqId id hm1 hm2]
      omega

/-- A covered request's slice is exactly the records for the requested
heights: contiguous starting at `fromH` and `toH + 1 - fromH` records long. -/
theorem reqSlice_spec (s : ExecState) (f t : Int)
    (hbuf : contiguousFrom s.nextFin s.buffer = true)
    (hcov : covers s f t = true) :
    contiguousFrom f (reqSlice s f t) = true ∧
    (reqSlice s f t).length = (t + 1 - f).toNat := by
  have hc : s.nextFin ≤ f ∧ t < s.nextFin + (s.buffer.length : Int) := by
    simpa [covers, Bool.and_eq_true, decide_eq_true_eq] using hcov
  unfold reqSlice
  by_cases hd : (f - s.nextFin).toNat ≤ s.buffer.length
  · constructor
    · apply contiguousFrom_take
      have hdrop := contiguousFrom_drop s.buffer s.nextFin
        (f - s.nextFin).toNat hd hbuf
      have hf : s.nextFin + ((f - s.nextFin).toNat : Int) = f := by omega
      rwa [hf] at hdrop
    · have hmin : (t + 1 - f).toNat
          ≤ s.buffer.length - (f - s.nextFin).toNat := by omega
      rw [List.length_take, List.length_drop, Nat.min_eq_left hmin]
  · have hdrop : s.buffer.drop (f - s.nextFin).toNat = [] :=
      List.drop_eq_nil_of_le (by omega)
    rw [hdrop]
    constructor
    · simp [contiguousFrom]
    · simp only [List.take_nil, List.length_nil]
      omega

/-- Shape of every callback a single transition can fire: a success callback
carries `nil` error, and every failure callback carries no records and one of
the five errors `ErrCanceled`, `ErrTerminated`, `ErrPrefixChanged`,
`ErrConverterProtocol`, `ErrConverterFailure`. -/
theorem step_cb_err (s : ExecState) (c : Cmd) (id : Nat)
    (txs : List BlockTransaction) (err : Option ExError)
    (hmem : Event.callback id txs err ∈ (step s c).2) :
    err = none ∨
      (txs = [] ∧ err ∈ [some ExError.errCanceled, some ExError.errTerminated,
        some ExError.errPrefixChanged, some ExError.errConverterProtocol,
        some ExError.errConverterFailure]) := by
  have hmap : ∀ (rs : List RequestEntry) (e : ExError),
      Event.callback id txs err ∈ rs.map
        (fun r => Event.callback r.id [] (some e)) →
      txs = [] ∧ err = some e := by
    intro rs e hm
    obtain ⟨r, _, hr⟩ := List.mem_map.mp hm
    simp only [Event.callback.injEq] at hr
    exact ⟨hr.2.1.symm, hr.2.2.symm⟩
  cases c with
  | start =>
      simp only [step, ExecState.startOp] at hmem
      split at hmem <;> simp at hmem
  | term =>
      simp only [step, ExecState.termOp] at hmem
      split at hmem
      · simp at hmem
      · have := hmap _ _ hmem
        exact Or.inr ⟨this.1, by rw [this.2]; decide⟩
  | getTxs f t =>
      simp only [step, ExecState.getTransactions] at hmem
      by_cases hp : s.phase = Phase.running
      case neg => simp only [if_neg hp] at hmem; simp at hmem
      case pos =>
        simp only [if_pos hp] at hmem
        by_cases hr : s.nextFin ≤ f ∧ f ≤ t + 1
        case neg => simp only [if_neg hr] at hmem; simp at hmem
        case pos =>
          simp only [if_pos hr] at hmem
          by_cases hcov : covers s f t = true
          · simp only [hcov, if_pos] at hmem
            rcases List.mem_append.mp hmem with hl | hr2
            · have := hmap _ _ hl
              exact Or.inr ⟨this.1, by rw [this.2]; decide⟩
            · have := List.mem_singleton.mp hr2
              simp only [Event.callback.injEq] at this
              exact Or.inl this.2.2
          · simp only [Bool.not_eq_true] at hcov
            simp only [hcov, Bool.false_eq_true, if_false] at hmem
            have := hmap _ _ hmem
            exact Or.inr ⟨this.1, by rw [this.2]; decide⟩
  | cancel i =>
      simp only [step, ExecState.cancelOp] at hmem
      have := hmap _ _ hmem
      exact Or.inr ⟨this.1, by rw [this.2]; decide⟩
  | propose => simp [step] at hmem
  | finalize toH =>
      simp only [step] at hmem
      cases hf : s.finalizeTransactions toH <;> simp [hf] at hmem
  | sync txs2 =>
      simp only [step] at hmem
      cases hf : s.syncTransactions txs2 with
      | error e => simp [hf] at hmem
      | ok r =>
          rw [hf] at hmem
          unfold ExecState.syncTransactions at hf
          by_cases hp : s.phase = Phase.running
          · simp only [if_pos hp] at hf
            by_cases hc : contiguousFrom s.nextFin txs2 = true
            · simp only [hc, if_pos] at hf
              by_cases heqb : s.buffer.take txs2.length = txs2
              · simp only [if_pos heqb] at hf
                cases hf
                simp at hmem
              · simp only [if_neg heqb] at hf
                cases hf
                rcases List.mem_append.mp hmem with hl | hr2
                · have := hmap _ _ hl
                  exact Or.inr ⟨this.1, by rw [this.2]; decide⟩
                · have := List.mem_singleton.mp hr2
                  simp at this
            · simp only [Bool.not_eq_true] at hc
              simp only [hc, Bool.false_eq_true, if_false] at hf
              cases hf
          · simp only [if_neg hp] at hf; cases hf
  | onReceive t =>
      simp only [step, ExecState.onReceiveOp] at hmem
      by_cases hp : s.phase = Phase.running
      case neg => simp only [if_neg hp] at hmem; simp at hmem
      case pos =>
        simp only [if_pos hp] at hmem
        cases hses : s.session with
        | none => rw [hses] at hmem; simp at hmem
        | some ses =>
            rw [hses] at hmem
            by_cases hh : t.Height = ses.expectedNext
            · simp only [if_pos hh, resolveReady] at hmem
              obtain ⟨r, _, hr⟩ := List.mem_map.mp hmem
              simp only [Event.callback.injEq] at hr
              exact Or.inl hr.2.2.symm
            · simp only [if_neg hh, sessionFail] at hmem
              have := hmap _ _ hmem
              exact Or.inr ⟨this.1, by rw [this.2]; decide⟩
  | onError =>
      simp only [step, ExecState.onErrorOp] at hmem
      by_cases hp : s.phase = Phase.running
      case neg => simp only [if_neg hp] at hmem; simp at hmem
      case pos =>
        simp only [if_pos hp] at hmem
        cases hses : s.session with
        | none => rw [hses] at hmem; simp at hmem
        | some ses =>
            rw [hses] at hmem
            simp only [sessionFail] at hmem
            have := hmap _ _ hmem
            exact Or.inr ⟨this.1, by rw [this.2]; decide⟩

/-- `step_cb_err` lifted to whole command sequences. -/
theorem run_cb_err (s : ExecState) (cmds : List Cmd) (id : Nat)
    (txs : List BlockTransaction) (err : Option ExError)
    (hmem : Event.callback id txs err ∈ (run s cmds).2) :
    err = none ∨
      (txs = [] ∧ err ∈ [some ExError.errCanceled, some ExError.errTerminated,
        some ExError.errPrefixChanged, some ExError.errConverterProtocol,
        some ExError.errConverterFailure]) := by
  induction cmds generalizing s with
  | nil => simp [run] at hmem
  | cons c rest ih =>
      simp only [run] at hmem
      rcases List.mem_append.mp hmem with h | h
      · exact step_cb_err s c id txs err h
      · exact ih (step s c).1 h

/-- Every success callback delivers the requested records: it belongs to a
request (already pending, or arriving with this very command) with some range
`[fromH, toH]`, and its payload is the buffer slice for that range — the
contiguous records of heights `fromH … toH`, all `toH + 1 - fromH` of them. -/
theorem step_cb_ok (s : ExecState) (c : Cmd) (id : Nat)
    (txs : List BlockTransaction) (hwf : WF s)
    (hmem : Event.callback id txs none ∈ (step s c).2) :
    ∃ fromH toH,
      (({ id := id, fromH := fromH, toH := toH } : RequestEntry) ∈ s.requests ∨
        (c = Cmd.getTxs fromH toH ∧ id = s.nextReqId)) ∧
      txs = reqSlice (step s c).1 fromH toH ∧
      contiguousFrom fromH txs = true ∧
      txs.length = (toH + 1 - fromH).toNat := by
  obtain ⟨hbuf, hlog, hlen, hsess, hphase⟩ := hwf
  have hmapno : ∀ (rs : List RequestEntry) (e : ExError),
      Event.callback id txs none ∈ rs.map
        (fun r => Event.callback r.id [] (some e)) → False := by
    intro rs e hm
    obtain ⟨r, _, hr⟩ := List.mem_map.mp hm
    simp at hr
  cases c with
  | start =>
      simp only [step, ExecState.startOp] at hmem
      split at hmem <;> simp at hmem
  | term =>
      simp only [step, ExecState.termOp] at hmem
      split at hmem
      · simp at hmem
      · exact absurd hmem (hmapno _ _)
  | getTxs f t =>
      by_cases hp : s.phase = Phase.running
      case neg =>
        simp only [step, ExecState.getTransactions, if_neg hp] at hmem
        simp at hmem
      case pos =>
        by_cases hr : s.nextFin ≤ f ∧ f ≤ t + 1
        case neg =>
          simp only [step, ExecState.getTransactions, if_pos hp,
            if_neg hr] at hmem
          simp at hmem
        case pos =>
          by_cases hcov : covers s f t = true
          · simp only [step, ExecState.getTransactions, if_pos hp, if_pos hr,
              hcov, if_pos] at hmem ⊢
            rcases List.mem_append.mp hmem with hl | hr2
            · exact absurd hl (hmapno _ _)
            · have heq := List.mem_singleton.mp hr2
              simp only [Event.callback.injEq] at heq
              obtain ⟨hid, htxs, -⟩ := heq
              refine ⟨f, t, Or.inr ⟨rfl, hid⟩, htxs, ?_, ?_⟩
              · rw [htxs]
                exact (reqSlice_spec s f t hbuf hcov).1
              · rw [htxs]
                exact (reqSlice_spec s f t hbuf hcov).2
          · simp only [step, ExecState.getTransactions, if_pos hp, if_pos hr,
              Bool.not_eq_true] at hmem
            simp only [Bool.not_eq_true] at hcov
            simp only [hcov, Bool.false_eq_true, if_false] at hmem
            exact absurd hmem (hmapno _ _)
  | cancel i =>
      simp only [step, ExecState.cancelOp] at hmem
      exact absurd hmem (hmapno _ _)
  | propose => simp [step] at hmem
  | finalize toH =>
      simp only [step] at hmem
      cases hf : s.finalizeTransactions toH <;> simp [hf] at hmem
  | sync txs2 =>
      simp only [step] at hmem
      cases hf : s.syncTransactions txs2 with
      | error e => simp [hf] at hmem
      | ok r =>
          rw [hf] at hmem
          unfold ExecState.syncTransactions at hf
          by_cases hp : s.phase = Phase.running
          · simp only [if_pos hp] at hf
            by_cases hc : contiguousFrom s.nextFin txs2 = true
            · simp only [hc, if_pos] at hf
              by_cases heqb : s.buffer.take txs2.length = txs2
              · simp only [if_pos heqb] at hf
                cases hf
                simp at hmem
              · simp only [if_neg heqb] at hf
                cases hf
                rcases List.mem_append.mp hmem with hl | hr2
                · exact absurd hl (hmapno _ _)
                · have := List.mem_singleton.mp hr2
                  simp at this
            · simp only [Bool.not_eq_true] at hc
              simp only [hc, Bool.false_eq_true, if_false] at hf
              cases hf
          · simp only [if_neg hp] at hf; cases hf
  | onReceive t =>
      by_cases hp : s.phase = Phase.running
      case neg =>
        simp only [step, ExecState.onReceiveOp, if_neg hp] at hmem
        simp at hmem
      case pos =>
        cases hses : s.session with
        | none =>
            simp only [step, ExecState.onReceiveOp, if_pos hp, hses] at hmem
            simp at hmem
        | some ses =>
            by_cases hh : t.Height = ses.expectedNext
            · have hexp := hsess
              simp only [sessOK, hses, beq_iff_eq] at hexp
              have hbuf2 : contiguousFrom s.nextFin (s.buffer ++ [t]) = true :=
                contiguousFrom_snoc s.buffer s.nextFin t hbuf (by omega)
              simp only [step, ExecState.onReceiveOp, if_pos hp, hses,
                if_pos hh, resolveReady] at hmem ⊢
              obtain ⟨r, hrmem, hrc⟩ := List.mem_map.mp hmem
              simp only [Event.callback.injEq] at hrc
              obtain ⟨hid, htxs, -⟩ := hrc
              have hfil := List.mem_filter.mp hrmem
              refine ⟨r.fromH, r.toH, Or.inl ?_, htxs.symm, ?_, ?_⟩
              · rw [← hid]
                exact hfil.1
              · rw [← htxs]
                exact (reqSlice_spec _ r.fromH r.toH hbuf2 hfil.2).1
              · rw [← htxs]
                exact (reqSlice_spec _ r.fromH r.toH hbuf2 hfil.2).2
            · simp only [step, ExecState.onReceiveOp, if_pos hp, hses,
                if_neg hh, sessionFail] at hmem
              exact absurd hmem (hmapno _ _)
  | onError =>
      by_cases hp : s.phase = Phase.running
      case neg =>
        simp only [step, ExecState.onErrorOp, if_neg hp] at hmem
        simp at hmem
      case pos =>
        cases hses : s.session with
        | none =>
            simp only [step, ExecState.onErrorOp, if_pos hp, hses] at hmem
            simp at hmem
        | some ses =>
            simp only [step, ExecState.onErrorOp, if_pos hp, hses,
              sessionFail] at hmem
            exact absurd hmem (hmapno _ _)

/-! Concrete states used by the witnesses. -/

/-- A running executor holding `TX(0..9,"OK")` in its buffer over an empty,
healthy log. -/
def sFin : ExecState :=
  { phase := Phase.running
    log := emptyLog
    nextFin := 0
    buffer := buildTestTxs 0 9 "OK"
    requests := []
    session := some { fromH := 0, toH := 0, txs := [], expectedNext := 10 }
    nextReqId := 0 }

/-- The state expected after `sFin.finalizeTransactions 4`. -/
def sFin' : ExecState :=
  { phase := Phase.running
    log := { entries := buildTestTxs 0 4 "OK", failAfter := none }
    nextFin := 5
    buffer := buildTestTxs 5 9 "OK"
    requests := []
    session := some { fromH := 0, toH := 0, txs := [], expectedNext := 10 }
    nextReqId := 0 }

/-- Like `sFin` but over a log whose next write fails. -/
def sFinBad : ExecState :=
  { phase := Phase.running
    log := { entries := [], failAfter := some 0 }
    nextFin := 0
    buffer := buildTestTxs 0 9 "OK"
    requests := []
    session := some { fromH := 0, toH := 0, txs := [], expectedNext := 10 }
    nextReqId := 0 }

/-- A running executor whose log already holds heights 0–9 (all finalized). -/
def s10 : ExecState :=
  { phase := Phase.running
    log := { entries := buildTestTxs 0 9 "OK", failAfter := none }
    nextFin := 10
    buffer := []
    requests := []
    session := none
    nextReqId := 3 }

/-- A running executor buffering `TX(0..4,"OK")` with one pending request. -/
def sC4 : ExecState :=
  { phase := Phase.running
    log := emptyLog
    nextFin := 0
    buffer := buildTestTxs 0 4 "OK"
    requests := [{ id := 0, fromH := 0, toH := 9 }]
    session := some { fromH := 0, toH := 0, txs := [], expectedNext := 5 }
    nextReqId := 1 }

/-- The divergent prefix `TX(0..4,"OTHER")` of scenario S3. -/
def pC4 : List BlockTransaction := buildTestTxs 0 4 "OTHER"

/-- The state expected after `sC4.syncTransactions pC4`. -/
def sC4' : ExecState :=
  { phase := Phase.running
    log := emptyLog
    nextFin := 0
    buffer := pC4
    requests := []
    session := some { fromH := 0, toH := 0, txs := pC4, expectedNext := 5 }
    nextReqId := 1 }

/-- A running executor buffering `TX(0..1,"OK")` with a live session. -/
def sC6 : ExecState :=
  { phase := Phase.running
    log := emptyLog
    nextFin := 0
    buffer := buildTestTxs 0 1 "OK"
    requests := []
    session := some { fromH := 0, toH := 0, txs := [], expectedNext := 2 }
    nextReqId := 0 }

/-- C1: with `last_finalized < H` and the buffer holding heights
`last_finalized+1 … H` contiguously, a successful `FinalizeTransactions(H)`
appends exactly those records to the durable log (keeping it contiguous, i.e.
in ascending height order), advances the watermark to `H+1` and removes the
heights from the buffer; on a log I/O failure the error (the log-write error)
is returned and no state is mutated. -/
theorem C1_finalize_atomic (s : ExecState) (H : Int) (hwf : WF s)
    (hp : s.phase = Phase.running) (hH : s.nextFin ≤ H)
    (hn : (H + 1 - s.nextFin).toNat ≤ s.buffer.length) :
    (∀ s2, s.finalizeTransactions H = Except.ok s2 →
      s2.log.entries
          = s.log.entries ++ s.buffer.take (H + 1 - s.nextFin).toNat ∧
      contiguousFrom 0 s2.log.entries = true ∧
      s2.nextFin = H + 1 ∧
      s2.buffer = s.buffer.drop (H + 1 - s.nextFin).toNat ∧
      (∀ t ∈ s2.buffer, H < t.Height)) ∧
    (∀ e, s.finalizeTransactions H = Except.error e →
      e = ExError.errLogWrite ∧ step s (Cmd.finalize H) = (s, [])) := by
  obtain ⟨hbuf, hlog, hlen, hsess, hphase⟩ := hwf
  constructor
  · intro s2 hf
    unfold ExecState.finalizeTransactions at hf
    simp only [if_pos hp, if_pos hH, if_pos hn] at hf
    cases ha : s.log.appendAll (s.buffer.take ((H + 1 - s.nextFin).toNat)) with
    | error e => rw [ha] at hf; cases hf
    | ok log2 =>
        rw [ha] at hf
        cases hf
        have hents := appendAll_ok _ _ _ ha
        have hdrop := contiguousFrom_drop s.buffer s.nextFin
          (H + 1 - s.nextFin).toNat hn hbuf
        have harith : s.nextFin + ((H + 1 - s.nextFin).toNat : Int)
            = H + 1 := by omega
        rw [harith] at hdrop
        refine ⟨hents.1, ?_, rfl, rfl, ?_⟩
        · rw [hents.1, contiguousFrom_append]
          have htake := contiguousFrom_take s.buffer s.nextFin
            (H + 1 - s.nextFin).toNat hbuf
          have hz : (0 : Int) + (s.log.entries.length : Int) = s.nextFin := by
            omega
          rw [hz, hlog, htake]
          rfl
        · intro t ht
          have := contiguousFrom_mem_le _ _ hdrop t ht
          omega
  · intro e hf
    refine ⟨?_, ?_⟩
    · unfold ExecState.finalizeTransactions at hf
      simp only [if_pos hp, if_pos hH, if_pos hn] at hf
      cases ha : s.log.appendAll (s.buffer.take ((H + 1 - s.nextFin).toNat)) with
      | error e2 =>
          rw [ha] at hf
          cases hf
          exact appendAll_error _ _ _ ha
      | ok log2 => rw [ha] at hf; cases hf
    · simp [step, hf]

/-- C1 witness: finalizing heights 0–4 of `sFin` succeeds and produces
`sFin'`; the same call on `sFinBad` (failing log) returns the log-write error
and leaves the state untouched. -/
theorem C1_finalize_atomic_witness :
    (sFin'.log.entries
        = sFin.log.entries ++ sFin.buffer.take ((4 + 1 - sFin.nextFin)).toNat ∧
      sFin'.nextFin = 5 ∧
      sFin'.buffer = sFin.buffer.drop ((4 + 1 - sFin.nextFin)).toNat) ∧
    (ExError.errLogWrite = ExError.errLogWrite ∧
      step sFinBad (Cmd.finalize 4) = (sFinBad, [])) := by
  have hok := (C1_finalize_atomic sFin 4 (by decide) rfl (by decide)
    (by decide)).1 sFin' (by decide)
  have hbad := (C1_finalize_atomic sFinBad 4 (by decide) rfl (by decide)
    (by decide)).2 ExError.errLogWrite (by decide)
  exact ⟨⟨hok.1, hok.2.2.1, hok.2.2.2.1⟩, hbad⟩

/-- C2: for any well-formed executor state, terminating it leaves the durable
log as is, and starting a fresh executor over that same log issues a first
`Rebase` with `from = last_finalized + 1` (the watermark of the terminated
executor), `to = 0` and an empty prefix. -/
theorem C2_restart_rebase (s : ExecState) (hwf : WF s) :
    (step s Cmd.term).1.log = s.log ∧
    (step (mkExecutor (step s Cmd.term).1.log) Cmd.start).2
      = [Event.rebase s.nextFin 0 []] := by
  obtain ⟨hbuf, hlog, hlen, hsess, hphase⟩ := hwf
  have hterm : (step s Cmd.term).1.log = s.log := by
    simp only [step, ExecState.termOp]
    split <;> rfl
  refine ⟨hterm, ?_⟩
  rw [hterm]
  simp only [step, ExecState.startOp, mkExecutor, if_pos]
  have hrec : s.log.recoveredNext = s.nextFin := by
    unfold DurableLog.recoveredNext
    rw [recoverNextAux_contig s.log.entries 0 hlog]
    omega
  rw [hrec]

/-- C2 witness: after heights 0–9 are finalized (log of length 10), a restart
issues `Rebase(10, 0, nil)`. -/
theorem C2_restart_rebase_witness :
    (step s10 Cmd.term).1.log = s10.log ∧
    (step (mkExecutor (step s10 Cmd.term).1.log) Cmd.start).2
      = [Event.rebase 10 0 []] :=
  C2_restart_rebase s10 (by decide)

/-- C3 (counterexample): a request callback can also fire with the converter
protocol error, which is none of `ErrCanceled`, `ErrTerminated`,
`ErrPrefixChanged`, and carries no data: starting, registering `Get(0,9)` and
then receiving an out-of-order record (height 5 instead of 0) invokes the
callback with `ErrConverterProtocol`. -/
theorem C3_callback_error_counterexample :
    (run (mkExecutor emptyLog)
        [Cmd.start, Cmd.getTxs 0 9, Cmd.onReceive (buildTestTx 5 "OK")]).2
      = [Event.rebase 0 0 [],
         Event.callback 0 [] (some ExError.errConverterProtocol)] ∧
    ExError.errConverterProtocol ≠ ExError.errCanceled ∧
    ExError.errConverterProtocol ≠ ExError.errTerminated ∧
    ExError.errConverterProtocol ≠ ExError.errPrefixChanged := by
  refine ⟨by decide, by decide, by decide, by decide⟩

/-- C3 (amended): over any command sequence from a freshly opened executor,
each request id receives at most one callback; it receives exactly one iff it
was registered and is no longer pending; once the executor is terminated every
registered request has received exactly one callback (none is left uninvoked);
every callback in the trace either has `nil` error or carries no records and
exactly one error among `ErrCanceled`, `ErrTerminated`, `ErrPrefixChanged`,
`ErrConverterProtocol`, `ErrConverterFailure`; and every success callback of
any transition from a well-formed state delivers the requested records — the
buffer slice for the range of the pending (or just-arriving) request with
that id: the contiguous records of heights `fromH … toH`. -/
theorem C3_callback_exactly_once (log : DurableLog)
    (hlog : contiguousFrom 0 log.entries = true) (cmds : List Cmd) (id : Nat) :
    cbCount (run (mkExecutor log) cmds).2 id ≤ 1 ∧
    (cbCount (run (mkExecutor log) cmds).2 id = 1 ↔
      (id < (run (mkExecutor log) cmds).1.nextReqId ∧
        pcount (run (mkExecutor log) cmds).1 id = 0)) ∧
    ((run (mkExecutor log) cmds).1.phase = Phase.terminated →
      (cbCount (run (mkExecutor log) cmds).2 id = 1 ↔
        id < (run (mkExecutor log) cmds).1.nextReqId)) ∧
    (∀ txs err, Event.callback id txs err ∈ (run (mkExecutor log) cmds).2 →
      err = none ∨
        (txs = [] ∧ err ∈ [some ExError.errCanceled,
          some ExError.errTerminated, some ExError.errPrefixChanged,
          some ExError.errConverterProtocol,
          some ExError.errConverterFailure])) ∧
    (∀ s c txs, WF s → Event.callback id txs none ∈ (step s c).2 →
      ∃ fromH toH,
        (({ id := id, fromH := fromH, toH := toH } : RequestEntry)
            ∈ s.requests ∨
          (c = Cmd.getTxs fromH toH ∧ id = s.nextReqId)) ∧
        txs = reqSlice (step s c).1 fromH toH ∧
        contiguousFrom fromH txs = true ∧
        txs.length = (toH + 1 - fromH).toNat) := by
  have hinit : WF (mkExecutor log) := by
    refine ⟨rfl, hlog, ?_, rfl, rfl⟩
    show log.recoveredNext = (log.entries.length : Int)
    unfold DurableLog.recoveredNext
    rw [recoverNextAux_contig log.entries 0 hlog]
    omega
  have hled := run_ledger (mkExecutor log) cmds id
  have h0 : pcount (mkExecutor log) id = 0 := by
    simp [pcount, pendingIds, mkExecutor]
  rw [h0] at hled
  have hfin := WF_run (mkExecutor log) cmds hinit
  have hpend0 : (run (mkExecutor log) cmds).1.phase = Phase.terminated →
      pcount (run (mkExecutor log) cmds).1 id = 0 := by
    intro hterm
    have hpo := hfin.2.2.2.2
    have : (run (mkExecutor log) cmds).1.requests = [] := by
      simp only [phaseOK, hterm, Bool.and_eq_true] at hpo
      have := hpo.1
      simpa using this
    simp [pcount, pendingIds, this]
  have hmain :
      cbCount (run (mkExecutor log) cmds).2 id ≤ 1 ∧
      (cbCount (run (mkExecutor log) cmds).2 id = 1 ↔
        (id < (run (mkExecutor log) cmds).1.nextReqId ∧
          pcount (run (mkExecutor log) cmds).1 id = 0)) ∧
      ((run (mkExecutor log) cmds).1.phase = Phase.terminated →
        (cbCount (run (mkExecutor log) cmds).2 id = 1 ↔
          id < (run (mkExecutor log) cmds).1.nextReqId)) := by
    by_cases hx : id < (run (mkExecutor log) cmds).1.nextReqId
    · have hreg : regInd (mkExecutor log).nextReqId
          (run (mkExecutor log) cmds).1.nextReqId id = 1 := by
        simp only [regInd, mkExecutor]
        rw [if_pos ⟨Nat.zero_le id, hx⟩]
      rw [hreg] at hled
      refine ⟨by omega, ⟨fun h1 => ⟨hx, by omega⟩, fun h2 => by omega⟩, ?_⟩
      intro hterm
      have := hpend0 hterm
      exact ⟨fun _ => hx, fun _ => by omega⟩
    · have hreg : regInd (mkExecutor log).nextReqId
          (run (mkExecutor log) cmds).1.nextReqId id = 0 := by
        simp only [regInd, mkExecutor]
        rw [if_neg (fun hcon => hx hcon.2)]
      rw [hreg] at hled
      refine ⟨by omega, ⟨fun h1 => by omega, fun h2 => absurd h2.1 hx⟩, ?_⟩
      intro hterm
      exact ⟨fun h1 => by omega, fun h2 => absurd h2 hx⟩
  exact ⟨hmain.1, hmain.2.1, hmain.2.2,
    fun txs err hm => run_cb_err (mkExecutor log) cmds id txs err hm,
    fun s c txs hw hm => step_cb_ok s c id txs hw hm⟩

/-- C3 witness: after start, one `Get(0,9)` and `Term`, request 0 has received
exactly one callback. -/
theorem C3_callback_exactly_once_witness :
    cbCount (run (mkExecutor emptyLog)
      [Cmd.start, Cmd.getTxs 0 9, Cmd.term]).2 0 = 1 := by
  have h := C3_callback_exactly_once emptyLog (by decide)
    [Cmd.start, Cmd.getTxs 0 9, Cmd.term] 0
  exact ((h.2.2.1) (by decide)).mpr (by decide)

/-- The state a divergent `SyncTransactions` leaves behind: adopted prefix,
empty queue, fresh session. -/
def syncedState (s : ExecState) (p : List BlockTransaction) : ExecState :=
  { s with
      buffer := p
      requests := []
      session := some { fromH := s.nextFin, toH := 0, txs := p,
                        expectedNext := s.nextFin + (p.length : Int) } }

theorem getTransactions_resolved (s : ExecState) (fromH toH : Int)
    (hp : s.phase = Phase.running) (hreq : s.requests = [])
    (hr1 : s.nextFin ≤ fromH) (hr2 : fromH ≤ toH + 1)
    (hcov : covers s fromH toH = true) :
    (s.getTransactions fromH toH).2
      = [Event.callback s.nextReqId (reqSlice s fromH toH) none] := by
  unfold ExecState.getTransactions
  rw [if_pos hp, if_pos ⟨hr1, hr2⟩, hreq]
  simp [hcov]

/-- C4: after a successful `SyncTransactions(p)` the executor's in-memory
prefix of length `|p|` equals `p` record-by-record; when `p` diverges from the
local prefix the current session's requests are failed, the converter is
re-based with arguments `(last_finalized+1, 0, p)`, and a subsequent
`GetTransactions` over those heights resolves immediately with exactly the
records of `p`. -/
theorem C4_sync_prefix (s : ExecState) (p : List BlockTransaction)
    (s' : ExecState) (evs : List Event)
    (hp : s.phase = Phase.running) (hc : contiguousFrom s.nextFin p = true)
    (hok : s.syncTransactions p = Except.ok (s', evs)) :
    s'.buffer.take p.length = p ∧
    (s.buffer.take p.length ≠ p →
      evs = (s.requests.map (fun r => Event.callback r.id []
                (some ExError.errPrefixChanged)))
            ++ [Event.rebase s.nextFin 0 p] ∧
      s'.session = some { fromH := s.nextFin, toH := 0, txs := p,
                          expectedNext := s.nextFin + (p.length : Int) } ∧
      (s'.getTransactions s.nextFin (s.nextFin + (p.length : Int) - 1)).2
        = [Event.callback s'.nextReqId p none]) := by
  unfold ExecState.syncTransactions at hok
  simp only [if_pos hp, hc, if_pos] at hok
  by_cases heq : s.buffer.take p.length = p
  · simp only [if_pos heq] at hok
    cases hok
    exact ⟨heq, fun hcon => absurd heq hcon⟩
  · simp only [if_neg heq] at hok
    cases hok
    refine ⟨List.take_length p, fun _ => ⟨rfl, rfl, ?_⟩⟩
    show ((syncedState s p).getTransactions s.nextFin
        (s.nextFin + (p.length : Int) - 1)).2
      = [Event.callback (syncedState s p).nextReqId p none]
    have hcov : covers (syncedState s p) s.nextFin
        (s.nextFin + (p.length : Int) - 1) = true := by
      simp only [covers, syncedState, Bool.and_eq_true, decide_eq_true_eq]
      exact ⟨le_refl _, by omega⟩
    have hr2 : s.nextFin ≤ s.nextFin + (p.length : Int) - 1 + 1 := by omega
    have hres := getTransactions_resolved (syncedState s p) s.nextFin
      (s.nextFin + (p.length : Int) - 1) hp rfl (le_refl _) hr2 hcov
    rw [hres]
    have hslice : reqSlice (syncedState s p) s.nextFin
        (s.nextFin + (p.length : Int) - 1) = p := by
      unfold reqSlice
      simp only [syncedState]
      have hd : (s.nextFin - s.nextFin).toNat = 0 := by omega
      have ht : (s.nextFin + (p.length : Int) - 1 + 1 - s.nextFin).toNat
          = p.length := by omega
      rw [hd, ht, List.drop_zero, List.take_length]
    rw [hslice]

/-- C4 witness: syncing `sC4` onto `TX(0..4,"OTHER")` adopts that prefix and a
following `Get` over heights 0–4 yields exactly those records. -/
theorem C4_sync_prefix_witness :
    sC4'.buffer.take pC4.length = pC4 ∧
    (sC4'.getTransactions sC4.nextFin (sC4.nextFin + (pC4.length : Int) - 1)).2
      = [Event.callback sC4'.nextReqId pC4 none] := by
  have h := C4_sync_prefix sC4 pC4 sC4'
    [Event.callback 0 [] (some ExError.errPrefixChanged),
     Event.rebase 0 0 pC4] rfl (by decide) (by decide)
  exact ⟨h.1, (h.2 (by decide)).2.2⟩

/-- C5: scenario S3 (supersession) — with the buffer holding `TX(0..4,"OK")`
and `Get(0,9)` pending, a new `Get(0,4)` resolves immediately with the four
(plus one) buffered records while the older `Get(0,9)` is failed with
`ErrPrefixChanged`. -/
theorem C5_supersession :
    (run (mkExecutor emptyLog)
        ([Cmd.start] ++ ((buildTestTxs 0 4 "OK").map Cmd.onReceive)
          ++ [Cmd.getTxs 0 9, Cmd.getTxs 0 4])).2
      = [Event.rebase 0 0 [],
         Event.callback 0 [] (some ExError.errPrefixChanged),
         Event.callback 1 (buildTestTxs 0 4 "OK") none] := by
  decide

/-- C6: the drain worker appends a received record iff its height equals the
session's `expected_next_height`: a mismatch fails the session with
`ErrConverterProtocol` (callbacks fire with that error) and appends nothing,
while a match appends the record, keeping the buffer contiguous from
`last_finalized + 1`. -/
theorem C6_drain_monotonic (s : ExecState) (ses : Session)
    (t : BlockTransaction) (hwf : WF s) (hp : s.phase = Phase.running)
    (hses : s.session = some ses) :
    (t.Height ≠ ses.expectedNext →
      (s.onReceiveOp t).1.session = none ∧
      (s.onReceiveOp t).1.buffer = s.buffer ∧
      (s.onReceiveOp t).2 = s.requests.map
        (fun r => Event.callback r.id [] (some ExError.errConverterProtocol))) ∧
    (t.Height = ses.expectedNext →
      (s.onReceiveOp t).1.buffer = s.buffer ++ [t] ∧
      contiguousFrom s.nextFin (s.onReceiveOp t).1.buffer = true) := by
  obtain ⟨hbuf, hlog, hlen, hsess, hphase⟩ := hwf
  unfold ExecState.onReceiveOp
  simp only [if_pos hp, hses]
  constructor
  · intro hne
    simp [if_neg hne, sessionFail]
  · intro heq
    simp only [if_pos heq, resolveReady]
    refine ⟨by trivial, ?_⟩
    have hexp := hsess
    simp only [sessOK, hses, beq_iff_eq] at hexp
    exact contiguousFrom_snoc s.buffer s.nextFin t hbuf (by omega)

/-- C6 witness: on `sC6` (expecting height 2), receiving `TX(5)` fails the
session and leaves the buffer alone; receiving `TX(2)` appends it. -/
theorem C6_drain_monotonic_witness :
    ((sC6.onReceiveOp (buildTestTx 5 "OK")).1.session = none ∧
      (sC6.onReceiveOp (buildTestTx 5 "OK")).1.buffer = sC6.buffer) ∧
    (sC6.onReceiveOp (buildTestTx 2 "OK")).1.buffer
      = sC6.buffer ++ [buildTestTx 2 "OK"] := by
  have hbad := C6_drain_monotonic sC6
    { fromH := 0, toH := 0, txs := [], expectedNext := 2 }
    (buildTestTx 5 "OK") (by decide) rfl rfl
  have hgood := C6_drain_monotonic sC6
    { fromH := 0, toH := 0, txs := [], expectedNext := 2 }
    (buildTestTx 2 "OK") (by decide) rfl rfl
  exact ⟨⟨(hbad.1 (by decide)).1, (hbad.1 (by decide)).2.1⟩,
    (hgood.2 (by decide)).1⟩

/-- C7: `ProposeTransactions` is a total, effect-free function returning the
prefix of the pending buffer up to `propose_max` records; in a well-formed
state that prefix is contiguous starting at `last_finalized + 1`, its length
is `min propose_max |buffer|`, and it is empty when nothing is buffered. -/
theorem C7_propose_prefix (s : ExecState) (hwf : WF s) :
    s.proposeTransactions = s.buffer.take proposeMax ∧
    contiguousFrom s.nextFin s.proposeTransactions = true ∧
    s.proposeTransactions.length = min proposeMax s.buffer.length ∧
    (s.buffer = [] → s.proposeTransactions = []) ∧
    step s Cmd.propose = (s, []) := by
  obtain ⟨hbuf, hlog, hlen, hsess, hphase⟩ := hwf
  refine ⟨rfl, ?_, ?_, ?_, rfl⟩
  · exact contiguousFrom_take s.buffer s.nextFin proposeMax hbuf
  · simp [ExecState.proposeTransactions, List.length_take]
  · intro hb
    simp [ExecState.proposeTransactions, hb]

/-- C7 witness: on `sFin` (10 buffered records), the proposal is the buffer
prefix and the operation does not disturb the state. -/
theorem C7_propose_prefix_witness :
    sFin.proposeTransactions = sFin.buffer.take proposeMax ∧
    step sFin Cmd.propose = (sFin, []) := by
  have h := C7_propose_prefix sFin (by decide)
  exact ⟨h.1, h.2.2.2.2⟩

/-- C8: starting an executor over an empty durable log issues the initial
`Rebase` with `from = 0`, `to = 0` and a nil prefix. -/
theorem C8_empty_log_start :
    (step (mkExecutor emptyLog) Cmd.start).2 = [Event.rebase 0 0 []] ∧
    (step (mkExecutor emptyLog) Cmd.start).1.session
      = some { fromH := 0, toH := 0, txs := [], expectedNext := 0 } := by
  refine ⟨by decide, by decide⟩

end Goloop
